import Mathlib

/-!
Shallow embedding of the CSP engine of the tile-compile repository
(src/csp/cspbase.py, src/csp/propagators.py, src/search/btsearch.py),
together with theorems settling the specification claims about it.

Modelling conventions:
* Python values are modelled as `Nat` (`Val`); `Variable` objects, which are
  compared by identity, are modelled by identifiers (`VarId`) indexing into an
  explicit state `St : VarId → VarState`.
* A Python dict is modelled as an association list with the dict's
  insertion-order semantics: storing overwrites the entry in place if the key
  is present and appends a new entry otherwise; looking up a missing key is a
  `KeyError`, modelled as `none`.
* Mutation is modelled by explicit state passing; a Python method that prints
  an error diagnostic and returns without mutating is modelled as returning an
  error token together with the unchanged state.
-/

namespace TileCompile

abbrev Val := Nat
abbrev VarId := Nat

/-- Python dict read `m[k]` on the `cur_domain` dict; `none` is a KeyError. -/
def lookupA : List (Val × Bool) → Val → Option Bool
  | [], _ => none
  | (k, b) :: rest, key => if k = key then some b else lookupA rest key

/-- Python dict store `m[k] = b`: overwrite in place when the key is present,
append a fresh entry otherwise. -/
def setA : List (Val × Bool) → Val → Bool → List (Val × Bool)
  | [], key, b => [(key, b)]
  | (k, v) :: rest, key, b =>
      if k = key then (k, b) :: rest else (k, v) :: setA rest key b

@[simp] theorem lookupA_setA_self (m : List (Val × Bool)) (k : Val) (b : Bool) :
    lookupA (setA m k b) k = some b := by
  induction m with
  | nil => simp [setA, lookupA]
  | cons p rest ih =>
      obtain ⟨k', b'⟩ := p
      by_cases h : k' = k <;> simp [setA, lookupA, h, ih]

theorem lookupA_setA_ne (m : List (Val × Bool)) (k k' : Val) (b : Bool)
    (h : k ≠ k') : lookupA (setA m k b) k' = lookupA m k' := by
  induction m with
  | nil => simp [setA, lookupA, h]
  | cons p rest ih =>
      obtain ⟨k₀, b₀⟩ := p
      by_cases h0 : k₀ = k
      · subst h0; simp [setA, lookupA, h]
      · simp [setA, lookupA, h0, ih]

theorem keys_setA_of_mem (m : List (Val × Bool)) (k : Val) (b : Bool)
    (h : k ∈ m.map Prod.fst) : (setA m k b).map Prod.fst = m.map Prod.fst := by
  induction m with
  | nil => simp at h
  | cons p rest ih =>
      obtain ⟨k₀, b₀⟩ := p
      by_cases h0 : k₀ = k
      · simp [setA, h0]
      · have hk : k ∈ rest.map Prod.fst := by
          simp only [List.map_cons, List.mem_cons] at h
          rcases h with h | h
          · exact absurd h.symm h0
          · exact h
        simp [setA, h0, ih hk]

theorem mem_keys_setA (m : List (Val × Bool)) (k k' : Val) (b : Bool) :
    k' ∈ (setA m k b).map Prod.fst ↔ k' ∈ m.map Prod.fst ∨ k' = k := by
  induction m with
  | nil => simp [setA, eq_comm]
  | cons p rest ih =>
      obtain ⟨k₀, b₀⟩ := p
      by_cases h0 : k₀ = k
      · subst h0; constructor
        · intro h; simp [setA] at h; rcases h with h | h
          · exact Or.inl (by simp [h])
          · exact Or.inl (by simp [List.mem_map] at h ⊢; tauto)
        · intro h; rcases h with h | h
          · simp [setA] at h ⊢; tauto
          · simp [setA, h]
      · simp only [setA, if_neg h0, List.map_cons, List.mem_cons, ih]
        tauto

theorem keysNodup_setA (m : List (Val × Bool)) (k : Val) (b : Bool)
    (h : (m.map Prod.fst).Nodup) : ((setA m k b).map Prod.fst).Nodup := by
  induction m with
  | nil => simp [setA]
  | cons p rest ih =>
      obtain ⟨k₀, b₀⟩ := p
      simp only [List.map_cons, List.nodup_cons] at h
      by_cases h0 : k₀ = k
      · subst h0
        have hs : setA ((k₀, b₀) :: rest) k₀ b = (k₀, b) :: rest := by simp [setA]
        rw [hs]
        simp only [List.map_cons, List.nodup_cons]
        exact h
      · simp only [setA, if_neg h0, List.map_cons, List.nodup_cons]
        refine ⟨fun hc => ?_, ih h.2⟩
        rw [mem_keys_setA] at hc
        rcases hc with hc | hc
        · exact h.1 hc
        · exact h0 hc

/-- State of one `Variable` object (cspbase.py, class `Variable`).
The source's `cur_domain_flag` / `cur_domain_cache` pair is a memo of the
filter in `get_cur_domain`; every mutator raises the flag, so the cache is
never stale and `get_cur_domain` below is its exact value. -/
structure VarState where
  domain : List Val
  cur_domain : List (Val × Bool)
  assignedValue : Option Val
deriving DecidableEq, Repr

/-- `Variable.__init__`: `cur_domain = {val: True for val in domain}`. -/
def mkVariable (dom : List Val) : VarState :=
  { domain := dom, cur_domain := dom.map (fun v => (v, true)), assignedValue := none }

def VarState.is_assigned (v : VarState) : Bool := v.assignedValue.isSome

def VarState.get_assigned_value (v : VarState) : Option Val := v.assignedValue

/-- `Variable.get_cur_domain`: the assigned value as a singleton view when
assigned, otherwise the mask-derived list. -/
def VarState.get_cur_domain (v : VarState) : List Val :=
  match v.assignedValue with
  | some x => [x]
  | none => (v.cur_domain.filter (fun p => p.2)).map Prod.fst

/-- `Variable.in_cur_domain`; `none` models the KeyError raised when the
variable is unassigned and `x` was never a key of the `cur_domain` dict. -/
def VarState.in_cur_domain (v : VarState) (x : Val) : Option Bool :=
  match v.assignedValue with
  | some a => some (decide (x = a))
  | none => lookupA v.cur_domain x

/-- `Variable.get_cur_domain_size`. -/
def VarState.get_cur_domain_size (v : VarState) : Nat :=
  match v.assignedValue with
  | some _ => 1
  | none => (v.cur_domain.filter (fun p => p.2)).length

/-- `Variable.prune_value`; note that the source first *unassigns* the
variable when the pruned value is the currently assigned one. -/
def VarState.prune_value (v : VarState) (x : Val) : VarState :=
  let v' := if v.assignedValue = some x then { v with assignedValue := none } else v
  { v' with cur_domain := setA v'.cur_domain x false }

/-- `Variable.unprune_value`. -/
def VarState.unprune_value (v : VarState) (x : Val) : VarState :=
  { v with cur_domain := setA v.cur_domain x true }

/-- `Variable.restore_cur_domain`:
`for val in self.domain: self.cur_domain[val] = True`. -/
def VarState.restore_cur_domain (v : VarState) : VarState :=
  { v with cur_domain := v.domain.foldl (fun m val => setA m val true) v.cur_domain }

/-- The error tokens of the `Variable` protocol.  In the source,
`IllegalAssignment` / `IllegalUnassignment` are the `ERROR:` diagnostics
printed by `assign` / `unassign` before returning with the state unchanged;
`keyError` is the Python `KeyError` raised by the dict read in
`in_cur_domain` when the value was never a `cur_domain` key. -/
inductive PyError
  | illegalAssignment
  | illegalUnassignment
  | keyError
deriving DecidableEq, Repr

/-- `Variable.assign`: returns the error (if any) and the resulting state. -/
def VarState.assign (v : VarState) (x : Val) : Option PyError × VarState :=
  if v.is_assigned then (some .illegalAssignment, v)
  else
    match lookupA v.cur_domain x with
    | none => (some .keyError, v)
    | some b =>
        if b then (none, { v with assignedValue := some x })
        else (some .illegalAssignment, v)

/-- `Variable.unassign`: returns the error (if any) and the resulting state. -/
def VarState.unassign (v : VarState) : Option PyError × VarState :=
  if v.is_assigned then (none, { v with assignedValue := none })
  else (some .illegalUnassignment, v)

/-! ### Claim C3: interaction of assignment and pruning -/

/-- A `Variable` assigned to `1`, with both mask entries still present. -/
def c3Var : VarState :=
  { domain := [1, 2], cur_domain := [(1, true), (2, true)], assignedValue := some 1 }

/-- C3 counterexample: the claim states that for a Variable assigned to `x`,
`prune_value(x)` leaves it assigned to `x` (only the mask entry changes).  In
the source, `prune_value` first unassigns the variable when the pruned value
is the assigned one, so after `prune_value(1)` the variable is no longer
assigned. -/
theorem prune_assigned_value_unassigns :
    c3Var.assignedValue = some 1 ∧ (c3Var.prune_value 1).assignedValue ≠ some 1 := by
  decide

/-- C3 amended: assignment and unassignment never mutate the current-domain
mask, and pruning commutes with assignment for values other than the assigned
one; but `prune_value(x)` on a Variable assigned to `x` unassigns it and then
clears `x`'s mask entry, so the two operation families are independent only
away from the assigned value. -/
theorem assign_prune_interaction_amended (v : VarState) (x y : Val) :
    ((v.assign x).2.cur_domain = v.cur_domain) ∧
    (v.unassign.2.cur_domain = v.cur_domain) ∧
    (v.assignedValue = some x → x ≠ y →
      (v.prune_value y).assignedValue = some x) ∧
    (v.assignedValue = none → lookupA v.cur_domain x = some true → x ≠ y →
      (v.assign x).2.prune_value y = ((v.prune_value y).assign x).2) ∧
    (v.assignedValue = some x →
      v.prune_value x =
        { v with assignedValue := none, cur_domain := setA v.cur_domain x false }) := by
  refine ⟨?_, ?_, ?_, ?_, ?_⟩
  · unfold VarState.assign
    split
    · rfl
    · cases h : lookupA v.cur_domain x with
      | none => rfl
      | some b => cases b <;> simp [h]
  · unfold VarState.unassign
    split <;> rfl
  · intro hx hxy
    simp [VarState.prune_value, hx, hxy]
  · intro hna hlk hxy
    have h1 : v.assign x = (none, { v with assignedValue := some x }) := by
      simp [VarState.assign, VarState.is_assigned, hna, hlk]
    have h2 : v.prune_value y = { v with cur_domain := setA v.cur_domain y false } := by
      simp [VarState.prune_value, hna]
    have h3 : ({ v with cur_domain := setA v.cur_domain y false } : VarState).assign x =
        (none, { v with cur_domain := setA v.cur_domain y false,
                        assignedValue := some x }) := by
      simp [VarState.assign, VarState.is_assigned, hna,
        lookupA_setA_ne _ y x false (Ne.symm hxy), hlk]
    rw [h1, h2, h3]
    simp [VarState.prune_value, hxy]
  · intro hx
    unfold VarState.prune_value
    simp [hx]

/-- C3 amended, witness at a concrete input. -/
theorem assign_prune_interaction_amended_witness :
    (c3Var.prune_value 2).assignedValue = some 1 ∧
    c3Var.prune_value 1 =
      { c3Var with assignedValue := none, cur_domain := setA c3Var.cur_domain 1 false } := by
  have h := assign_prune_interaction_amended c3Var 1 2
  exact ⟨h.2.2.1 rfl (by decide), h.2.2.2.2 rfl⟩

/-! ### Claim C4: failure behaviour of assign / unassign -/

/-- An unassigned `Variable` with permanent domain `{1}`. -/
def c4Var : VarState := mkVariable [1]

/-- C4 counterexample: the claim states that `assign(v)` fails with an
`IllegalAssignment` error whenever `v` is not in the current domain.  For a
value that was never a key of the `cur_domain` dict, the source instead
raises a `KeyError` from the dict read in `in_cur_domain`. -/
theorem assign_out_of_domain_keyerror :
    c4Var.assignedValue = none ∧
    (c4Var.assign 2).1 ≠ some PyError.illegalAssignment ∧
    c4Var.assign 2 = (some PyError.keyError, c4Var) := by
  decide

/-- C4 amended: `assign(v)` fails with `IllegalAssignment` when the Variable
is already assigned, or when `v` is a `cur_domain` key whose mask entry is
false; when `v` was never a `cur_domain` key it raises a `KeyError` instead;
`unassign()` fails with `IllegalUnassignment` when the Variable is not
assigned.  In every failure case the Variable's state is unchanged. -/
theorem assign_unassign_failures_amended (v : VarState) (x : Val) :
    (v.is_assigned = true → v.assign x = (some .illegalAssignment, v)) ∧
    (v.is_assigned = false → lookupA v.cur_domain x = some false →
      v.assign x = (some .illegalAssignment, v)) ∧
    (v.is_assigned = false → lookupA v.cur_domain x = none →
      v.assign x = (some .keyError, v)) ∧
    (v.is_assigned = false → v.unassign = (some .illegalUnassignment, v)) := by
  refine ⟨?_, ?_, ?_, ?_⟩
  · intro h; unfold VarState.assign; simp [h]
  · intro h hlk; unfold VarState.assign; simp [h, hlk]
  · intro h hlk; unfold VarState.assign; simp [h, hlk]
  · intro h; unfold VarState.unassign; simp [h]

/-- C4 amended, witness at concrete inputs. -/
theorem assign_unassign_failures_amended_witness :
    c3Var.assign 2 = (some PyError.illegalAssignment, c3Var) ∧
    c4Var.assign 2 = (some PyError.keyError, c4Var) ∧
    c4Var.unassign = (some PyError.illegalUnassignment, c4Var) := by
  have h3 := assign_unassign_failures_amended c3Var 2
  have h4 := assign_unassign_failures_amended c4Var 2
  exact ⟨h3.1 rfl, h4.2.2.1 rfl rfl, h4.2.2.2 rfl⟩

/-! ### Claim C8: the assignment view of the current domain -/

/-- An unassigned `Variable` with domain `{1, 2}` whose value `1` is pruned. -/
def c8Var : VarState :=
  { domain := [1, 2], cur_domain := [(1, false), (2, true)], assignedValue := none }

/-- C8 counterexample: the claim quantifies over every value `x` of the
permanent domain, "regardless of the state of the current-domain mask".  For
a domain value whose mask entry is false, `assign(x)` fails (the value is not
in the current domain) and `get_cur_domain` does not become `{x}`. -/
theorem assign_pruned_value_view :
    (1 : Val) ∈ c8Var.domain ∧
    (c8Var.assign 1).2.get_cur_domain ≠ [1] := by
  decide

/-- C8 amended: for every value `x` in the *current* domain of an unassigned
Variable, `assign(x)` succeeds and `get_cur_domain()` returns exactly the
singleton `[x]` regardless of the rest of the mask; a subsequent `unassign()`
restores the state, and with it the mask-derived view, exactly. -/
theorem assign_view_amended (v : VarState) (x : Val)
    (hna : v.assignedValue = none) (hlk : lookupA v.cur_domain x = some true) :
    (v.assign x).1 = none ∧
    (v.assign x).2.get_cur_domain = [x] ∧
    (v.assign x).2.unassign = (none, v) ∧
    (v.assign x).2.unassign.2.get_cur_domain = v.get_cur_domain := by
  have hass : v.assign x = (none, { v with assignedValue := some x }) := by
    unfold VarState.assign VarState.is_assigned
    simp [hna, hlk]
  have hun : ({ v with assignedValue := some x } : VarState).unassign = (none, v) := by
    unfold VarState.unassign VarState.is_assigned
    simp only [Option.isSome_some, if_true]
    have : ({ v with assignedValue := none } : VarState) = v := by
      cases v; simp_all
    rw [this]
  refine ⟨by rw [hass], ?_, by rw [hass, hun], by rw [hass, hun]⟩
  rw [hass]
  unfold VarState.get_cur_domain
  rfl

/-- C8 amended, witness at a concrete input. -/
theorem assign_view_amended_witness :
    (c8Var.assign 2).1 = none ∧
    (c8Var.assign 2).2.get_cur_domain = [2] ∧
    (c8Var.assign 2).2.unassign = (none, c8Var) ∧
    (c8Var.assign 2).2.unassign.2.get_cur_domain = c8Var.get_cur_domain :=
  assign_view_amended c8Var 2 rfl rfl

/-! ### Claim C9: the restore law -/

/-- C9 counterexample: the claim asserts `get_cur_domain() == domain` after
`restore_cur_domain()` with *no precondition on assignment*.  For an assigned
Variable the view stays the assigned singleton, not the whole domain. -/
theorem restore_assigned_view :
    (2 : Val) ∈ c3Var.domain ∧
    (2 : Val) ∉ c3Var.restore_cur_domain.get_cur_domain ∧
    c3Var.restore_cur_domain.get_cur_domain ≠ c3Var.domain := by
  decide

theorem foldl_setA_true_of_keys_eq (d : List Val) :
    ∀ m : List (Val × Bool), m.map Prod.fst = d → d.Nodup →
      d.foldl (fun m val => setA m val true) m = d.map (fun k => (k, true)) := by
  induction d with
  | nil =>
      intro m hm _
      simp only [List.foldl_nil, List.map_nil]
      cases m with
      | nil => rfl
      | cons p rest => simp at hm
  | cons k d' ih =>
      intro m hm hnd
      cases m with
      | nil => simp at hm
      | cons p rest =>
          obtain ⟨k₀, b₀⟩ := p
          simp only [List.map_cons, List.cons.injEq] at hm
          obtain ⟨hk, hrest⟩ := hm
          subst hk
          simp only [List.nodup_cons] at hnd
          have hstep : setA ((k₀, b₀) :: rest) k₀ true = (k₀, true) :: rest := by
            simp [setA]
          have haux : ∀ (l : List Val) (m' : List (Val × Bool)) (b : Bool),
              k₀ ∉ l →
              l.foldl (fun m val => setA m val true) ((k₀, b) :: m') =
                (k₀, b) :: l.foldl (fun m val => setA m val true) m' := by
            intro l
            induction l with
            | nil => intro m' b _; rfl
            | cons a l' ihl =>
                intro m' b hk
                simp only [List.mem_cons, not_or] at hk
                simp only [List.foldl_cons]
                rw [show setA ((k₀, b) :: m') a true = (k₀, b) :: setA m' a true by
                  simp [setA, hk.1]]
                exact ihl _ _ hk.2
          simp only [List.foldl_cons, hstep, List.map_cons]
          rw [haux d' rest true hnd.1, ih rest hrest hnd.2]

/-- C9 amended: for an *unassigned* Variable whose `cur_domain` keys are its
(duplicate-free) permanent domain — the invariant established by the
constructor — `restore_cur_domain()` makes `get_cur_domain()` equal to the
permanent domain exactly. -/
theorem restore_unassigned_view_amended (v : VarState)
    (hna : v.assignedValue = none)
    (hkeys : v.cur_domain.map Prod.fst = v.domain)
    (hnd : v.domain.Nodup) :
    v.restore_cur_domain.get_cur_domain = v.domain := by
  unfold VarState.restore_cur_domain VarState.get_cur_domain
  simp only [hna]
  rw [foldl_setA_true_of_keys_eq v.domain v.cur_domain hkeys hnd]
  induction v.domain with
  | nil => rfl
  | cons a l ihl => simp_all

/-- C9 amended, witness at a concrete input. -/
theorem restore_unassigned_view_amended_witness :
    c8Var.restore_cur_domain.get_cur_domain = c8Var.domain :=
  restore_unassigned_view_amended c8Var rfl (by decide) (by decide)

/-! ### The Constraint model (cspbase.py, class `Constraint`) -/

/-- The per-CSP variable state: object identity of Python `Variable`s is a
`VarId`, the mutable object graph is the map from identities to states. -/
abbrev St := VarId → VarState

/-- Point update of the object graph. -/
def updSt (st : St) (v : VarId) (s : VarState) : St :=
  fun u => if u = v then s else st u

@[simp] theorem updSt_same (st : St) (v : VarId) (s : VarState) :
    updSt st v s v = s := by simp [updSt]

theorem updSt_other (st : St) (v u : VarId) (s : VarState) (h : u ≠ v) :
    updSt st v s u = st u := by simp [updSt, h]

/-- A `Constraint` (cspbase.py).  `scope` is `self.scope` (a Python set of
`Variable`s), enumerated in its iteration order; `pred` is
`constraint_function`, which receives the mapping `{var: value}`, here an
association list in scope order.  Values are `Option Val` because
`Constraint.check` passes `get_assigned_value()`, which is `None` for an
unassigned variable. -/
structure Constraint where
  scope : List VarId
  pred : List (VarId × Option Val) → Bool

/-- `Constraint.check`: evaluate the predicate on the current assignments of
the whole scope. -/
def Constraint.check (c : Constraint) (st : St) : Bool :=
  c.pred (c.scope.map (fun v => (v, (st v).assignedValue)))

/-- `Constraint.get_num_unassigned`. -/
def Constraint.get_num_unassigned (c : Constraint) (st : St) : Nat :=
  (c.scope.filter (fun v => !(st v).is_assigned)).length

/-- `itertools.product` over lists, first factor varying slowest. -/
def listProd : List (List Val) → List (List Val)
  | [] => [[]]
  | d :: ds => (d.map (fun x => (listProd ds).map (fun t => x :: t))).flatten

/-- `Constraint.check_mapping`: memoization of the constraint function by the
caches `sat_mappings` / `unsat_mappings` of previously computed results.
Mappings are compared as frozensets in the source; association lists built in
one fixed scope order represent equal frozensets exactly when they are equal
lists, so list membership is used here.  Returns the boolean result together
with the updated caches. -/
def check_mapping (pred : List (VarId × Option Val) → Bool)
    (sat unsat : List (List (VarId × Option Val)))
    (m : List (VarId × Option Val)) :
    Bool × List (List (VarId × Option Val)) × List (List (VarId × Option Val)) :=
  if m ∈ sat ∧ m ∉ unsat then (true, sat, unsat)
  else if pred m then (true, m :: sat, unsat)
  else (false, sat, m :: unsat)

/-- The caches only ever record previously computed results of `pred`. -/
def CachesValid (pred : List (VarId × Option Val) → Bool)
    (sat unsat : List (List (VarId × Option Val))) : Prop :=
  (∀ m ∈ sat, pred m = true) ∧ (∀ m ∈ unsat, pred m = false)

/-- Under valid caches, `check_mapping` returns exactly the predicate's value
and keeps the caches valid; hence the memoization in `has_support` below can
be replaced by the bare predicate. -/
theorem check_mapping_valid (pred : List (VarId × Option Val) → Bool)
    (sat unsat : List (List (VarId × Option Val)))
    (m : List (VarId × Option Val)) (h : CachesValid pred sat unsat) :
    (check_mapping pred sat unsat m).1 = pred m ∧
    CachesValid pred (check_mapping pred sat unsat m).2.1
      (check_mapping pred sat unsat m).2.2 := by
  unfold check_mapping
  by_cases h1 : m ∈ sat ∧ m ∉ unsat
  · rw [if_pos h1]
    exact ⟨(h.1 m h1.1).symm, h⟩
  · rw [if_neg h1]
    by_cases h2 : pred m = true
    · rw [if_pos h2]
      refine ⟨h2.symm, ?_, h.2⟩
      intro m' hm'
      rcases List.mem_cons.mp hm' with hm' | hm'
      · exact hm' ▸ h2
      · exact h.1 m' hm'
    · have h2' : pred m = false := by simpa using h2
      rw [if_neg h2]
      refine ⟨h2'.symm, h.1, ?_⟩
      intro m' hm'
      rcases List.mem_cons.mp hm' with hm' | hm'
      · exact hm' ▸ h2'
      · exact h.2 m' hm'

/-- `Constraint.has_support` (cspbase.py 334-363).  The `check_mapping`
memoization is replaced by the bare predicate, its value under valid caches
by `check_mapping_valid`.  NOTE this is a faithful translation: in the branch
for scopes of size ≥ 2, the source enumerates `itertools.product` over the
current domains of *all* scope variables and never forces `var = val` — both
`var` and `val` are unused there. -/
def Constraint.has_support (c : Constraint) (st : St) (var : VarId) (val : Val) : Bool :=
  if var ∉ c.scope then true
  else if c.scope.length = 1 then c.pred [(var, some val)]
  else
    let cur_domains := c.scope.map (fun v => (st v).get_cur_domain)
    (listProd cur_domains).any (fun assignment =>
      c.pred (c.scope.zip (assignment.map some)))

/-- The specification's `has_support` (spec.md §4.2), written from the spec's
words for comparison with the source's `Constraint.has_support`: true iff
there exists an assignment to every *other* scope variable, drawn from its
current domain, such that together with `var = val` the predicate holds;
for a singleton scope this degenerates to `predicate({var: val})`. -/
def specHasSupport (c : Constraint) (st : St) (var : VarId) (val : Val) : Bool :=
  if var ∉ c.scope then true
  else
    (listProd (c.scope.map (fun v =>
        if v = var then [val] else (st v).get_cur_domain))).any
      (fun assignment => c.pred (c.scope.zip (assignment.map some)))

/-! ### Claim C1: `has_support` ignores `val` on scopes of size ≥ 2 -/

/-- Variable states for the C1 failing input: variable `0` has current domain
`{1, 2}`, variable `1` has current domain `{2}`. -/
def c1St : St := fun i => if i = 0 then mkVariable [1, 2] else mkVariable [2]

/-- The constraint `x₀ < x₁` over scope `[0, 1]`. -/
def c1Con : Constraint :=
  { scope := [0, 1],
    pred := fun m =>
      match m with
      | [(_, some a), (_, some b)] => decide (a < b)
      | _ => false }

/-- C1: the claim (and the source's own docstring) require
`has_support(var, val)` to hold iff some assignment to the *other* scope
variables together with `var = val` satisfies the predicate.  The code, for
scopes of size ≥ 2, searches the product of the current domains of *all*
scope variables without ever fixing `var = val`.  At this input no
assignment with `x₀ = 2` satisfies `x₀ < x₁` (the only choice for `x₁` is
`2`), yet the code reports support because the tuple `(1, 2)` satisfies the
predicate. -/
theorem has_support_ignores_val_bug :
    c1Con.scope.length = 2 ∧
    (0 : VarId) ∈ c1Con.scope ∧
    (2 : Val) ∈ (c1St 0).get_cur_domain ∧
    c1Con.has_support c1St 0 2 = true ∧
    specHasSupport c1Con c1St 0 2 = false := by
  refine ⟨rfl, by decide, by decide, rfl, rfl⟩

/-! ### Claim C10: out-of-scope queries are vacuously supported -/

/-- C10: for a variable outside the constraint's scope, `has_support`
returns true unconditionally. -/
theorem has_support_out_of_scope (c : Constraint) (st : St) (var : VarId)
    (val : Val) (h : var ∉ c.scope) : c.has_support st var val = true := by
  unfold Constraint.has_support
  simp [h]

/-- C10 witness at a concrete input. -/
theorem has_support_out_of_scope_witness :
    (99 : VarId) ∉ c1Con.scope ∧ c1Con.has_support c1St 99 5 = true :=
  ⟨by decide, has_support_out_of_scope c1Con c1St 99 5 (by decide)⟩

/-! ### Claim C7: `CSP.add_constraint` (cspbase.py, class `CSP`) -/

/-- State of a `CSP` object: the registered variables, the stored constraint
identities, and the `vars_to_cons` index (a dict from variable to the set of
constraints over it, modelled as an association list of lists). -/
structure PyCSP where
  vars : List VarId
  cons : List Nat
  vars_to_cons : List (VarId × List Nat)

/-- `CSP.add_var`: rejected (with a printed warning, no state change) when
the variable is already registered. -/
def PyCSP.add_var (csp : PyCSP) (v : VarId) : PyCSP :=
  if v ∈ csp.vars_to_cons.map Prod.fst then csp
  else { csp with vars := csp.vars ++ [v], vars_to_cons := csp.vars_to_cons ++ [(v, [])] }

/-- `self.vars_to_cons[v].add(c)`: set insertion into the index entry of `v`. -/
def addIdx (m : List (VarId × List Nat)) (v : VarId) (cid : Nat) :
    List (VarId × List Nat) :=
  m.map (fun p => if p.1 = v then (p.1, if cid ∈ p.2 then p.2 else p.2 ++ [cid]) else p)

/-- `CSP.add_constraint` for the constraint with identity `cid` and the given
scope.  The boolean is false exactly on the `UnknownVariableInConstraint`
branch, where the source prints a diagnostic and returns with the CSP
unchanged; otherwise the index entry of every scope variable receives `cid`
and `cid` is stored in `self.cons`. -/
def PyCSP.add_constraint (csp : PyCSP) (cid : Nat) (scope : List VarId) :
    Bool × PyCSP :=
  if scope.any (fun v => decide (v ∉ csp.vars_to_cons.map Prod.fst)) then (false, csp)
  else
    (true,
      { csp with
        vars_to_cons := scope.foldl (fun m v => addIdx m v cid) csp.vars_to_cons,
        cons := if cid ∈ csp.cons then csp.cons else csp.cons ++ [cid] })

/-- The index entry of variable `v` (empty for an unregistered variable). -/
def idxEntry (m : List (VarId × List Nat)) (v : VarId) : List Nat :=
  match m with
  | [] => []
  | (k, l) :: rest => if k = v then l else idxEntry rest v

theorem addIdx_cons (k : VarId) (l : List Nat) (rest : List (VarId × List Nat))
    (v : VarId) (cid : Nat) :
    addIdx ((k, l) :: rest) v cid =
      (if k = v then (k, if cid ∈ l then l else l ++ [cid]) else (k, l)) ::
        addIdx rest v cid := by
  unfold addIdx
  rw [List.map_cons]

theorem idxEntry_cons (k : VarId) (l : List Nat) (rest : List (VarId × List Nat))
    (v : VarId) :
    idxEntry ((k, l) :: rest) v = if k = v then l else idxEntry rest v := rfl

theorem idxEntry_addIdx_self (m : List (VarId × List Nat)) (v : VarId) (cid : Nat)
    (h : v ∈ m.map Prod.fst) : cid ∈ idxEntry (addIdx m v cid) v := by
  induction m with
  | nil => simp at h
  | cons p rest ih =>
      obtain ⟨k, l⟩ := p
      rw [addIdx_cons]
      by_cases hk : k = v
      · rw [if_pos hk, idxEntry_cons, if_pos hk]
        by_cases hc : cid ∈ l
        · rw [if_pos hc]; exact hc
        · rw [if_neg hc]; simp
      · rw [if_neg hk, idxEntry_cons, if_neg hk]
        apply ih
        simp only [List.map_cons, List.mem_cons] at h
        rcases h with h | h
        · exact absurd h.symm hk
        · exact h

theorem idxEntry_addIdx_mono (m : List (VarId × List Nat)) (v u : VarId)
    (cid cid' : Nat) (h : cid ∈ idxEntry m u) :
    cid ∈ idxEntry (addIdx m v cid') u := by
  induction m with
  | nil => simp [idxEntry] at h
  | cons p rest ih =>
      obtain ⟨k, l⟩ := p
      rw [idxEntry_cons] at h
      rw [addIdx_cons]
      by_cases hk : k = v
      · rw [if_pos hk, idxEntry_cons]
        by_cases hku : k = u
        · rw [if_pos hku]
          rw [if_pos hku] at h
          by_cases hc : cid' ∈ l
          · rw [if_pos hc]; exact h
          · rw [if_neg hc]; exact List.mem_append_left _ h
        · rw [if_neg hku] at h
          rw [if_neg hku]
          exact ih h
      · rw [if_neg hk, idxEntry_cons]
        by_cases hku : k = u
        · rw [if_pos hku] at h ⊢; exact h
        · rw [if_neg hku] at h ⊢; exact ih h

theorem idxEntry_foldl_addIdx_mono (l : List VarId) (cid : Nat) (v : VarId) :
    ∀ M : List (VarId × List Nat), cid ∈ idxEntry M v →
      cid ∈ idxEntry (l.foldl (fun m u => addIdx m u cid) M) v := by
  induction l with
  | nil => intro M h; exact h
  | cons b l' ih =>
      intro M h
      exact ih (addIdx M b cid) (idxEntry_addIdx_mono M b v cid cid h)

theorem foldl_addIdx_mem (scope : List VarId) (cid : Nat) :
    ∀ (m : List (VarId × List Nat)),
      (∀ v ∈ scope, v ∈ m.map Prod.fst) →
      ∀ v ∈ scope, cid ∈ idxEntry (scope.foldl (fun m v => addIdx m v cid) m) v := by
  induction scope with
  | nil => intro m _ v hv; simp at hv
  | cons a rest ih =>
      intro m hreg v hv
      have hkeys : (addIdx m a cid).map Prod.fst = m.map Prod.fst := by
        unfold addIdx
        rw [List.map_map]
        congr 1
        funext p
        by_cases hp : p.1 = a <;> simp [hp]
      simp only [List.foldl_cons]
      rcases List.mem_cons.mp hv with hv | hv
      · subst hv
        exact idxEntry_foldl_addIdx_mono rest cid v (addIdx m v cid)
          (idxEntry_addIdx_self m v cid (hreg v (List.mem_cons_self v rest)))
      · refine ih (addIdx m a cid) ?_ v hv
        intro u hu
        rw [hkeys]
        exact hreg u (List.mem_cons_of_mem a hu)

/-- C7: `add_constraint` fails (the `UnknownVariableInConstraint` diagnostic)
when some scope variable is unregistered and then leaves the CSP entirely
unchanged; otherwise it stores the constraint and adds it to the index entry
of every scope variable. -/
theorem add_constraint_spec (csp : PyCSP) (cid : Nat) (scope : List VarId) :
    ((∃ v ∈ scope, v ∉ csp.vars_to_cons.map Prod.fst) →
      csp.add_constraint cid scope = (false, csp)) ∧
    ((∀ v ∈ scope, v ∈ csp.vars_to_cons.map Prod.fst) →
      (csp.add_constraint cid scope).1 = true ∧
      cid ∈ (csp.add_constraint cid scope).2.cons ∧
      (csp.add_constraint cid scope).2.vars = csp.vars ∧
      ∀ v ∈ scope, cid ∈ idxEntry (csp.add_constraint cid scope).2.vars_to_cons v) := by
  constructor
  · intro h
    obtain ⟨v, hv, hreg⟩ := h
    have hany : (scope.any fun v => decide (v ∉ csp.vars_to_cons.map Prod.fst)) = true := by
      rw [List.any_eq_true]
      exact ⟨v, hv, by simp only [decide_eq_true_eq]; exact hreg⟩
    unfold PyCSP.add_constraint
    rw [hany]
    exact if_pos rfl
  · intro h
    have hall : (scope.any fun v => decide (v ∉ csp.vars_to_cons.map Prod.fst)) = false := by
      rw [List.any_eq_false]
      intro v hv
      simpa using h v hv
    have heq : csp.add_constraint cid scope =
        (true,
          { csp with
            vars_to_cons := scope.foldl (fun m v => addIdx m v cid) csp.vars_to_cons,
            cons := if cid ∈ csp.cons then csp.cons else csp.cons ++ [cid] }) := by
      unfold PyCSP.add_constraint
      rw [hall]
      exact if_neg (by simp)
    rw [heq]
    refine ⟨rfl, ?_, rfl, ?_⟩
    · by_cases hc : cid ∈ csp.cons <;> simp [hc]
    · exact foldl_addIdx_mem scope cid csp.vars_to_cons h

/-! ### Helper facts about the Variable operations -/

theorem assign_snd_cur_domain (v : VarState) (x : Val) :
    (v.assign x).2.cur_domain = v.cur_domain := by
  unfold VarState.assign
  split
  · rfl
  · cases h : lookupA v.cur_domain x with
    | none => rfl
    | some b => cases b <;> simp [h]

theorem unassign_snd_cur_domain (v : VarState) :
    v.unassign.2.cur_domain = v.cur_domain := by
  unfold VarState.unassign
  split <;> rfl

theorem prune_value_cur_domain (v : VarState) (x : Val) :
    (v.prune_value x).cur_domain = setA v.cur_domain x false := by
  unfold VarState.prune_value
  split <;> rfl

/-- A value in the mask-derived current-domain view of a variable with
duplicate-free `cur_domain` keys has mask entry `true`. -/
theorem lookupA_eq_true_of_mem_view (m : List (Val × Bool)) (x : Val)
    (hnd : (m.map Prod.fst).Nodup)
    (hx : x ∈ (m.filter (fun p => p.2)).map Prod.fst) : lookupA m x = some true := by
  induction m with
  | nil => simp at hx
  | cons p rest ih =>
      obtain ⟨k, b⟩ := p
      simp only [List.map_cons, List.nodup_cons] at hnd
      have hsub : ∀ y, y ∈ (rest.filter (fun p => p.2)).map Prod.fst →
          y ∈ rest.map Prod.fst :=
        fun y hy => ((List.filter_sublist rest).map Prod.fst).subset hy
      by_cases hk : k = x
      · subst hk
        cases b with
        | true => simp [lookupA]
        | false =>
            exfalso
            have hfe : List.filter (fun p => p.2) ((k, false) :: rest) =
                List.filter (fun p => p.2) rest := by simp
            rw [hfe] at hx
            exact hnd.1 (hsub k hx)
      · have hx' : x ∈ (rest.filter (fun p => p.2)).map Prod.fst := by
          cases b with
          | false =>
              have hfe : List.filter (fun p => p.2) ((k, false) :: rest) =
                  List.filter (fun p => p.2) rest := by simp
              rwa [hfe] at hx
          | true =>
              have hfe : List.filter (fun p => p.2) ((k, true) :: rest) =
                  (k, true) :: List.filter (fun p => p.2) rest := by simp
              rw [hfe] at hx
              simp only [List.map_cons, List.mem_cons] at hx
              rcases hx with hx | hx
              · exact absurd hx.symm hk
              · exact hx
        simp [lookupA, hk, ih hnd.2 hx']

/-- The mask-derived current-domain view has no duplicates when the
`cur_domain` keys have none. -/
theorem view_nodup_of_keys_nodup (m : List (Val × Bool))
    (hnd : (m.map Prod.fst).Nodup) :
    ((m.filter (fun p => p.2)).map Prod.fst).Nodup :=
  List.Nodup.sublist (List.Sublist.map Prod.fst (List.filter_sublist m)) hnd

/-- every `cur_domain` dict has duplicate-free keys (always true of Python
dicts; an invariant of the association-list model). -/
def KeysNodup (st : St) : Prop :=
  ∀ v, (((st v).cur_domain).map Prod.fst).Nodup

/-! ### `GridVariableIterator` (cspbase.py 41-66)

`Constraint.get_scope` and `Constraint.get_unassigned_vars` wrap their
result in a `GridVariableIterator`, whose constructor sorts the collection
with the key

  lambda gv: (0 if len(gv.get_exit_points()) > 0 else
              1 if 0 in gv.get_coords() else 2) + gv.get_cur_domain_size()

No class of the program defines a method `get_exit_points`: the engine
`Variable` has no grid accessors at all, and the tile client's
`GridVariable` defines only the singular `get_exit_point`.  The attribute
lookup therefore raises `AttributeError`; and since `sorted` computes the
key of every element before comparing, the constructor raises for every
non-empty collection and succeeds only on an empty one.  Raised exceptions
are modelled as `none`. -/

/-- Attribute lookup `gv.get_exit_points`: defined by no class of the
program, so the lookup raises `AttributeError` (`none`) on every
variable. -/
def get_exit_points (_gv : VarId) : Option (List Val) :=
  none

/-- Attribute lookup `gv.get_coords`: not defined on the engine `Variable`
either (the tile client's `GridVariable` does define it, but the sort key
below has already raised at `get_exit_points` before reaching it). -/
def get_coords (_gv : VarId) : Option (List Val) :=
  none

/-- The sort key of `GridVariableIterator.__init__` (cspbase.py 45-47). -/
def gviKey (st : St) (gv : VarId) : Option Nat := do
  let eps ← get_exit_points gv
  let base ←
    if eps.length > 0 then
      some 0
    else do
      let cs ← get_coords gv
      some (if cs.contains 0 then 1 else 2)
  some (base + (st gv).get_cur_domain_size)

/-- `GridVariableIterator.__init__(collection)` (cspbase.py 42-48):
`sorted(collection, key=...)` computes the key of every element before
comparing, so the constructor raises (`none`) as soon as the collection is
non-empty.  The only collection that survives is the empty one, on which
every sort order coincides, so the success value is returned as given. -/
def gviInit (st : St) (collection : List VarId) : Option (List VarId) := do
  let _keys ← collection.mapM (gviKey st)
  some collection

/-- `Constraint.get_scope` (cspbase.py 290-295): wraps the scope in a
`GridVariableIterator`, hence raises `AttributeError` for every constraint
whose scope is non-empty. -/
def Constraint.get_scope_py (c : Constraint) (st : St) : Option (List VarId) :=
  gviInit st c.scope

/-- `Constraint.get_unassigned_vars` (cspbase.py 314-321): wraps the
unassigned scope variables in a `GridVariableIterator`, hence raises
`AttributeError` whenever at least one scope variable is unassigned. -/
def Constraint.get_unassigned_vars_py (c : Constraint) (st : St) :
    Option (List VarId) :=
  gviInit st (c.scope.filter (fun v => !(st v).is_assigned))

/-! ### Forward checking (propagators.py, `prop_fc`) -/

/-- The sort key of `filtered_constraints` (propagators.py 154):
`list(c.get_unassigned_vars())[0].get_cur_domain_size()`.  The call to
`get_unassigned_vars` already raises inside the `GridVariableIterator`
constructor for every constraint with at least one unassigned scope
variable. -/
def fcSortKey (c : Constraint) (st : St) : Option Nat := do
  let us ← c.get_unassigned_vars_py st
  let u ← us.head?
  some ((st u).get_cur_domain_size)

/-- `prop_fc` (propagators.py 101-175) on the candidate constraint list
(`csp.get_cons_with_var(new_var)` if `new_var` else `csp.get_all_cons()`).
The source filters the candidates down to those with exactly one unassigned
variable and sorts them by `fcSortKey`; `sorted` computes the key of every
element, and the key raises `AttributeError` for each element of the
filtered list, so the call completes only when the filtered list is empty.
In that case the `for constraint in filtered_constraints` loop (lines
158-174) has nothing to iterate, `pruned` stays `[]`, and the call returns
`(True, list(set([]))) = (True, [])` with no variable touched. -/
def prop_fc_py (constraints : List Constraint) (st : St) :
    Option (Bool × List (VarId × Val)) := do
  let filtered := constraints.filter (fun c => c.get_num_unassigned st == 1)
  let _keys ← filtered.mapM (fun c => fcSortKey c st)
  match filtered with
  | [] => some (true, [])
  | c :: _ => do
      -- dead branch: the sort above raises for every non-empty filtered
      -- list.  Were it reached, the loop body's first statement,
      -- `constraint.get_unassigned_vars().pop()` (line 159), raises the
      -- same `AttributeError`, so the remainder of the body (lines
      -- 161-174) is unreachable either way.
      let us ← c.get_unassigned_vars_py st
      let _var ← us.getLast?
      none

/-- Variable states for the C6 failing input: variable `0` unassigned with
current domain `{1}`, variable `1` assigned `2`. -/
def c6bSt : St := fun i =>
  if i = 0 then mkVariable [1] else ((mkVariable [2]).assign 2).2

/-- The constraint `x₀ = x₁` over scope `[0, 1]` for the C6 failing input:
with `x₁` assigned it has exactly one unassigned variable, so `prop_fc`
must forward-check it; doing so would wipe out `x₀`'s domain. -/
def c6bCon : Constraint :=
  { scope := [0, 1],
    pred := fun m =>
      match m with
      | [(_, some a), (_, some b)] => decide (a = b)
      | _ => false }

/-- C6: the claimed forward-checking behaviour never executes.  At the
failing input the candidate constraint has exactly one unassigned scope
variable — precisely the case `prop_fc` is specified to process, here a
full domain wipe-out, so the claim demands the return
`(False, [(x₀, 1)])` — but the sort key of `filtered_constraints`
(propagators.py 154) builds a `GridVariableIterator` whose sort key calls
the undefined method `get_exit_points` (cspbase.py 46), so the call raises
`AttributeError` instead of returning.  A `prop_fc` call completes only
when no candidate constraint has exactly one unassigned variable, and then
it returns `(True, [])` having checked and pruned nothing. -/
theorem prop_fc_attribute_error_bug :
    c6bCon.get_num_unassigned c6bSt = 1 ∧
    c6bCon.get_unassigned_vars_py c6bSt = none ∧
    prop_fc_py [c6bCon] c6bSt = none ∧
    prop_fc_py [] c6bSt = some (true, []) :=
  ⟨rfl, rfl, rfl, rfl⟩

/-! ### Generalized arc consistency (propagators.py, `prop_gac`) -/

/-- The `while gac_queue` loop of `prop_gac` (propagators.py 316-340), over
the seeded queue (`csp.get_cons_with_var(new_var)` if `new_var` else
`csp.get_all_cons()`, sorted by ascending unassigned-variable count — that
sort key, `get_num_unassigned`, raises nothing).  For each dequeued
constraint the source iterates
`sorted(constraint.get_scope(), key=lambda v: v.get_cur_domain_size())`,
and `get_scope()` already raises `AttributeError` inside the
`GridVariableIterator` constructor for every non-empty scope.  A dequeue
step therefore completes only for a constraint with empty scope, whose
variable loop has nothing to iterate: nothing is pruned, nothing is
re-enqueued, and `pruned` is returned unchanged when the queue empties. -/
def gacLoopPy (st : St) : List Constraint → List (VarId × Val) →
    Option (Bool × List (VarId × Val))
  | [], pruned => some (true, pruned)
  | c :: rest, pruned => do
      let scopeVars ← c.get_scope_py st
      match scopeVars with
      | [] => gacLoopPy st rest pruned
      | _ :: _ =>
          -- dead branch: `get_scope_py` succeeds only on an empty scope,
          -- so the variable loop (lines 319-340) is never entered.
          none

/-- Variable states for the C5 failing input: every variable unassigned
with current domain `{1}`. -/
def c5bSt : St := fun _ => mkVariable [1]

/-- The constraint `x₀ ≠ x₁` over scope `[0, 1]` for the C5 failing input:
over the singleton current domains the value `1` of `x₀` has no support,
so a successful GAC propagation would have to prune it (in fact wipe the
domain out and report the dead end). -/
def c5bCon : Constraint :=
  { scope := [0, 1],
    pred := fun m =>
      match m with
      | [(_, some a), (_, some b)] => decide (a ≠ b)
      | _ => false }

/-- C5: the claimed arc-consistency closure never executes.  At the failing
input the CSP is not arc-consistent (`has_support(x₀, 1)` is false), so a
successful `prop_gac` call would have to prune; instead the very first
dequeue raises: `sorted(constraint.get_scope(), ...)` (propagators.py 319)
builds a `GridVariableIterator` whose sort key calls the undefined method
`get_exit_points` (cspbase.py 46), an `AttributeError`.  A `prop_gac` call
completes only when every queued constraint has empty scope, and then it
returns `(True, [])` having enforced nothing. -/
theorem prop_gac_attribute_error_bug :
    c5bCon.has_support c5bSt 0 1 = false ∧
    c5bCon.get_scope_py c5bSt = none ∧
    gacLoopPy c5bSt [c5bCon] [] = none ∧
    gacLoopPy c5bSt [] [] = some (true, []) :=
  ⟨rfl, rfl, rfl, rfl⟩

/-! ### The backtracking search driver (btsearch.py) -/

/-- The propagator contract shape: given the CSP state and the optionally
newly assigned variable, return the dead-end flag, the pruned pairs and the
resulting state. -/
abbrev PropFn := St → Option VarId → Bool × List (VarId × Val) × St

/-- One `var.prune_value(val)` step on the object graph. -/
def prunedOne (st : St) (p : VarId × Val) : St :=
  updSt st p.1 ((st p.1).prune_value p.2)

/-- One `var.unprune_value(val)` step on the object graph. -/
def unprunedOne (st : St) (p : VarId × Val) : St :=
  updSt st p.1 ((st p.1).unprune_value p.2)

/-- Sequential pruning of a list of (Variable, Value) pairs. -/
def applyPrunes (st : St) (l : List (VarId × Val)) : St :=
  l.foldl prunedOne st

/-- `BacktrackingSearch.restoreValues`: unprune every recorded pair. -/
def restoreValues (st : St) (l : List (VarId × Val)) : St :=
  l.foldl unprunedOne st

/-- `BacktrackingSearch.restore_all_variable_domains`: unassign every
assigned variable and restore its current domain. -/
def restoreAll (vars : List VarId) (st : St) : St :=
  vars.foldl (fun s v =>
    let s1 := if (s v).is_assigned then updSt s v ((s v).unassign).2 else s
    updSt s1 v ((s1 v).restore_cur_domain)) st

/-- `extract_mr_var`: the first pool variable attaining the minimum
current-domain size (the source scans the pool, keeping the first strict
improvement). -/
def mrVar (pool : List VarId) (st : St) : Option VarId :=
  pool.foldl (fun acc v =>
    match acc with
    | none => some v
    | some m =>
        if (st v).get_cur_domain_size < (st m).get_cur_domain_size then some v
        else acc) none

/-- A well-formed prune list relative to `st`: pairwise distinct, each value
unpruned (mask entry true) and not the assigned value of its variable.  The
first two parts are the propagator protocol of the source's module comment
("SHOULD NOT prune a value that has already been pruned! Nor ... twice");
the third keeps `prune_value`'s unassignment branch out of play. -/
def FlatOk (st : St) (l : List (VarId × Val)) : Prop :=
  l.Nodup ∧ ∀ p ∈ l, lookupA ((st p.1).cur_domain) p.2 = some true ∧
    (st p.1).assignedValue ≠ some p.2

/-- A conforming propagator: its only state effect is pruning exactly the
pairs it returns, and that prune list is well formed. -/
def PropConform (prop : PropFn) : Prop :=
  ∀ st nv, (prop st nv).2.2 = applyPrunes st (prop st nv).2.1 ∧
    FlatOk st (prop st nv).2.1

theorem updSt_updSt (st : St) (v : VarId) (a b : VarState) :
    updSt (updSt st v a) v b = updSt st v b := by
  funext w
  by_cases hw : w = v <;> simp [updSt, hw]

theorem updSt_self (st : St) (v : VarId) : updSt st v (st v) = st := by
  funext w
  by_cases hw : w = v <;> simp [updSt, hw]

theorem setA_setA_same (m : List (Val × Bool)) (k : Val) (b1 b2 : Bool) :
    setA (setA m k b1) k b2 = setA m k b2 := by
  induction m with
  | nil => simp [setA]
  | cons p rest ih =>
      obtain ⟨k0, b0⟩ := p
      by_cases hk : k0 = k <;> simp [setA, hk, ih]

theorem setA_self (m : List (Val × Bool)) (k : Val) (b : Bool)
    (h : lookupA m k = some b) : setA m k b = m := by
  induction m with
  | nil => simp [lookupA] at h
  | cons p rest ih =>
      obtain ⟨k0, b0⟩ := p
      by_cases hk : k0 = k
      · subst hk
        have hb : b0 = b := by
          simp [lookupA] at h
          exact h
        subst hb
        simp [setA]
      · simp only [lookupA, if_neg hk] at h
        simp [setA, hk, ih h]

theorem setA_comm_of_mem (m : List (Val × Bool)) (k1 k2 : Val) (b1 b2 : Bool)
    (hne : k1 ≠ k2) (h1 : k1 ∈ m.map Prod.fst) :
    setA (setA m k1 b1) k2 b2 = setA (setA m k2 b2) k1 b1 := by
  induction m with
  | nil => simp at h1
  | cons p rest ih =>
      obtain ⟨k0, b0⟩ := p
      by_cases hk1 : k0 = k1
      · subst hk1
        simp [setA, hne, Ne.symm hne]
      · by_cases hk2 : k0 = k2
        · subst hk2
          simp [setA, hk1, Ne.symm hne, hne]
        · have h1' : k1 ∈ rest.map Prod.fst := by
            simp only [List.map_cons, List.mem_cons] at h1
            rcases h1 with h1 | h1
            · exact absurd h1.symm hk1
            · exact h1
          simp [setA, hk1, hk2, ih h1']

theorem mem_keys_of_lookupA (m : List (Val × Bool)) (k : Val) (b : Bool)
    (h : lookupA m k = some b) : k ∈ m.map Prod.fst := by
  induction m with
  | nil => simp [lookupA] at h
  | cons p rest ih =>
      obtain ⟨k0, b0⟩ := p
      by_cases hk : k0 = k
      · simp [hk]
      · simp only [lookupA, if_neg hk] at h
        simp [ih h]

/-- A pure prune (the pruned value is not the assigned one) only flips the
mask entry. -/
theorem prune_value_pure (v : VarState) (x : Val)
    (h : v.assignedValue ≠ some x) :
    v.prune_value x = { v with cur_domain := setA v.cur_domain x false } := by
  unfold VarState.prune_value
  simp [h]

theorem unprune_prune_comm (st : St) (p q : VarId × Val)
    (hne : q ≠ p)
    (hq : (st q.1).assignedValue ≠ some q.2)
    (hp : p.2 ∈ ((st p.1).cur_domain).map Prod.fst) :
    unprunedOne (prunedOne st q) p = prunedOne (unprunedOne st p) q := by
  obtain ⟨q1, q2⟩ := q
  obtain ⟨p1, p2⟩ := p
  simp only at hq hp
  by_cases hv : q1 = p1
  · subst hv
    have hval : q2 ≠ p2 := by
      intro he
      exact hne (by rw [he])
    funext w
    by_cases hw : w = q1
    · subst hw
      unfold unprunedOne prunedOne
      simp only [updSt_same]
      rw [prune_value_pure _ _ hq]
      have hq' : ((st w).unprune_value p2).assignedValue ≠ some q2 := hq
      rw [prune_value_pure _ _ hq']
      show ({ st w with
          cur_domain := setA (setA (st w).cur_domain q2 false) p2 true } : VarState) =
        { st w with cur_domain := setA (setA (st w).cur_domain p2 true) q2 false }
      rw [setA_comm_of_mem (st w).cur_domain p2 q2 true false (Ne.symm hval) hp]
    · unfold unprunedOne prunedOne updSt
      simp [hw]
  · funext w
    unfold unprunedOne prunedOne updSt
    by_cases hwp : w = p1
    · subst hwp
      have hpq : ¬w = q1 := fun he => hv he.symm
      simp [hpq]
    · by_cases hwq : w = q1
      · subst hwq
        simp [hv, hwp]
      · simp [hwp, hwq]

theorem prunedOne_assigned (st : St) (q : VarId × Val)
    (hq : (st q.1).assignedValue ≠ some q.2) (w : VarId) :
    ((prunedOne st q) w).assignedValue = (st w).assignedValue := by
  unfold prunedOne
  by_cases hw : w = q.1
  · subst hw
    rw [updSt_same, prune_value_pure _ _ hq]
  · rw [updSt_other _ _ _ _ hw]

theorem unprunedOne_assigned (st : St) (p : VarId × Val) (w : VarId) :
    ((unprunedOne st p) w).assignedValue = (st w).assignedValue := by
  unfold unprunedOne
  by_cases hw : w = p.1
  · subst hw
    rw [updSt_same]
    rfl
  · rw [updSt_other _ _ _ _ hw]

theorem mem_keys_prunedOne (st : St) (q : VarId × Val) (w : VarId) (x : Val)
    (h : x ∈ ((st w).cur_domain).map Prod.fst) :
    x ∈ (((prunedOne st q) w).cur_domain).map Prod.fst := by
  unfold prunedOne
  by_cases hw : w = q.1
  · subst hw
    rw [updSt_same, prune_value_cur_domain]
    exact (mem_keys_setA _ _ _ _).mpr (Or.inl h)
  · rw [updSt_other _ _ _ _ hw]
    exact h

theorem FlatOk_tail (st : St) (p : VarId × Val) (r : List (VarId × Val))
    (h : FlatOk st (p :: r)) : FlatOk (prunedOne st p) r := by
  obtain ⟨hnd, hfacts⟩ := h
  have hp := hfacts p (List.mem_cons_self p r)
  simp only [List.nodup_cons] at hnd
  refine ⟨hnd.2, ?_⟩
  intro q hq
  have hqf := hfacts q (List.mem_cons_of_mem p hq)
  have hqp : q ≠ p := fun he => hnd.1 (he ▸ hq)
  constructor
  · unfold prunedOne
    by_cases hw : q.1 = p.1
    · rw [hw, updSt_same, prune_value_cur_domain]
      have hvne : p.2 ≠ q.2 := by
        intro he
        exact hqp (Prod.ext hw he.symm)
      rw [lookupA_setA_ne _ _ _ _ hvne]
      have h1 := hqf.1
      rw [hw] at h1
      exact h1
    · rw [updSt_other _ _ _ _ hw]
      exact hqf.1
  · rw [show ((prunedOne st p) q.1).assignedValue = (st q.1).assignedValue from
      prunedOne_assigned st p hp.2 q.1]
    exact hqf.2

theorem applyPrunes_assigned (l : List (VarId × Val)) :
    ∀ (st : St), FlatOk st l → ∀ w,
      ((applyPrunes st l) w).assignedValue = (st w).assignedValue := by
  induction l with
  | nil => intro st _ w; rfl
  | cons p r ih =>
      intro st h w
      have hp := h.2 p (List.mem_cons_self p r)
      unfold applyPrunes
      simp only [List.foldl_cons]
      have hrec := ih (prunedOne st p) (FlatOk_tail st p r h) w
      unfold applyPrunes at hrec
      rw [hrec, prunedOne_assigned st p hp.2 w]

theorem restoreValues_assigned (l : List (VarId × Val)) :
    ∀ (st : St) (w : VarId),
      ((restoreValues st l) w).assignedValue = (st w).assignedValue := by
  induction l with
  | nil => intro st w; rfl
  | cons p r ih =>
      intro st w
      unfold restoreValues
      simp only [List.foldl_cons]
      have hrec := ih (unprunedOne st p) w
      unfold restoreValues at hrec
      rw [hrec, unprunedOne_assigned st p w]

theorem unprunedOne_applyPrunes_comm (r : List (VarId × Val)) :
    ∀ (st : St) (p : VarId × Val),
      (∀ q ∈ r, q ≠ p ∧ (st q.1).assignedValue ≠ some q.2) →
      p.2 ∈ ((st p.1).cur_domain).map Prod.fst →
      unprunedOne (applyPrunes st r) p = applyPrunes (unprunedOne st p) r := by
  induction r with
  | nil => intro st p _ _; rfl
  | cons q r ih =>
      intro st p hfacts hp
      have hq := hfacts q (List.mem_cons_self q r)
      unfold applyPrunes
      simp only [List.foldl_cons]
      have hfacts' : ∀ q' ∈ r, q' ≠ p ∧
          ((prunedOne st q) q'.1).assignedValue ≠ some q'.2 := by
        intro q' hq'
        have hq'f := hfacts q' (List.mem_cons_of_mem q hq')
        refine ⟨hq'f.1, ?_⟩
        rw [prunedOne_assigned st q hq.2 q'.1]
        exact hq'f.2
      have hp' := mem_keys_prunedOne st q p.1 p.2 hp
      have hstep := ih (prunedOne st q) p hfacts' hp'
      unfold applyPrunes at hstep
      rw [hstep, unprune_prune_comm st p q hq.1 hq.2 hp]

theorem unprunedOne_prunedOne_self (st : St) (p : VarId × Val)
    (hq : (st p.1).assignedValue ≠ some p.2)
    (hlk : lookupA ((st p.1).cur_domain) p.2 = some true) :
    unprunedOne (prunedOne st p) p = st := by
  unfold unprunedOne prunedOne
  rw [updSt_updSt]
  have harg : ((updSt st p.1 ((st p.1).prune_value p.2)) p.1).unprune_value p.2 =
      st p.1 := by
    rw [updSt_same, prune_value_pure _ _ hq]
    show ({ st p.1 with
        cur_domain := setA (setA (st p.1).cur_domain p.2 false) p.2 true } : VarState) =
      st p.1
    rw [setA_setA_same, setA_self _ _ _ hlk]
  rw [harg, updSt_self]

theorem restore_applyPrunes (l : List (VarId × Val)) :
    ∀ (st : St), FlatOk st l → restoreValues (applyPrunes st l) l = st := by
  induction l with
  | nil => intro st _; rfl
  | cons p r ih =>
      intro st h
      have hp := h.2 p (List.mem_cons_self p r)
      have hnd := h.1
      simp only [List.nodup_cons] at hnd
      unfold restoreValues applyPrunes
      simp only [List.foldl_cons]
      have hfacts : ∀ q ∈ r, q ≠ p ∧
          ((prunedOne st p) q.1).assignedValue ≠ some q.2 := by
        intro q hq
        refine ⟨fun he => hnd.1 (he ▸ hq), ?_⟩
        rw [prunedOne_assigned st p hp.2 q.1]
        exact (h.2 q (List.mem_cons_of_mem p hq)).2
      have hpres : p.2 ∈ (((prunedOne st p) p.1).cur_domain).map Prod.fst :=
        mem_keys_prunedOne st p p.1 p.2 (mem_keys_of_lookupA _ _ _ hp.1)
      have hcomm := unprunedOne_applyPrunes_comm r (prunedOne st p) p hfacts hpres
      unfold applyPrunes at hcomm
      rw [hcomm, unprunedOne_prunedOne_self st p hp.2 hp.1]
      have hih := ih st ⟨hnd.2, fun q hq => h.2 q (List.mem_cons_of_mem p hq)⟩
      unfold restoreValues applyPrunes at hih
      exact hih

theorem KeysNodup_prunedOne (st : St) (q : VarId × Val) (h : KeysNodup st) :
    KeysNodup (prunedOne st q) := by
  intro w
  unfold prunedOne
  by_cases hw : w = q.1
  · subst hw
    rw [updSt_same, prune_value_cur_domain]
    exact keysNodup_setA _ _ _ (h _)
  · rw [updSt_other _ _ _ _ hw]
    exact h w

theorem KeysNodup_unprunedOne (st : St) (q : VarId × Val) (h : KeysNodup st) :
    KeysNodup (unprunedOne st q) := by
  intro w
  unfold unprunedOne
  by_cases hw : w = q.1
  · subst hw
    rw [updSt_same]
    show ((setA (st q.1).cur_domain q.2 true).map Prod.fst).Nodup
    exact keysNodup_setA _ _ _ (h _)
  · rw [updSt_other _ _ _ _ hw]
    exact h w

theorem KeysNodup_applyPrunes (l : List (VarId × Val)) :
    ∀ (st : St), KeysNodup st → KeysNodup (applyPrunes st l) := by
  induction l with
  | nil => intro st h; exact h
  | cons p r ih =>
      intro st h
      unfold applyPrunes
      simp only [List.foldl_cons]
      have hrec := ih (prunedOne st p) (KeysNodup_prunedOne st p h)
      unfold applyPrunes at hrec
      exact hrec

theorem KeysNodup_restoreValues (l : List (VarId × Val)) :
    ∀ (st : St), KeysNodup st → KeysNodup (restoreValues st l) := by
  induction l with
  | nil => intro st h; exact h
  | cons p r ih =>
      intro st h
      unfold restoreValues
      simp only [List.foldl_cons]
      have hrec := ih (unprunedOne st p) (KeysNodup_unprunedOne st p h)
      unfold restoreValues at hrec
      exact hrec

/-- The undo step of a failed value trial in `bt_recurse`:
`self.restoreValues(prunings); var.unassign()`. -/
def btUndo (stR : St) (l : List (VarId × Val)) (var : VarId) : St :=
  updSt (restoreValues stR l) var (((restoreValues stR l) var).unassign).2

mutual

/-- `bt_recurse` (btsearch.py 153-192): return success on an empty pool,
otherwise extract the minimum-remaining-values variable and try its
current-domain values.  The returned triple is (found, pool, state): the
source mutates `self.unasgn_vars` in place, which the pool component models. -/
def btRecurse (prop : PropFn) :
    Nat → List VarId → St → Option (Bool × List VarId × St)
  | 0, _, _ => none
  | fuel + 1, pool, st =>
      match mrVar pool st with
      | none => some (true, pool, st)
      | some var =>
          btVals prop fuel var (pool.erase var) ((st var).get_cur_domain) st

/-- The `for val in var.get_cur_domain()` loop of `bt_recurse`: assign the
value (ignoring the error diagnostic, as the source does), run the
propagator, recurse on success; on propagator failure or failed recursion
restore exactly the returned prunes, unassign, and try the next value; when
the values are exhausted, append the variable back to the pool
(`restoreUnasgnVar`) and report failure.  The fuel counts interpreter steps;
a run that returns `some` is a faithful run of the source. -/
def btVals (prop : PropFn) :
    Nat → VarId → List VarId → List Val → St → Option (Bool × List VarId × St)
  | 0, _, _, _, _ => none
  | fuel + 1, var, pool, vals, st =>
      match vals with
      | [] => some (false, pool ++ [var], st)
      | val :: rest =>
          let st1 := updSt st var ((st var).assign val).2
          let r := prop st1 (some var)
          if r.1 then
            match btRecurse prop fuel pool r.2.2 with
            | none => none
            | some (true, poolR, stR) => some (true, poolR, stR)
            | some (false, poolR, stR) =>
                btVals prop fuel var poolR rest (btUndo stR r.2.1 var)
          else
            btVals prop fuel var pool rest (btUndo r.2.2 r.2.1 var)

end

/-- `bt_search` (btsearch.py 83-151): reset every variable, build the
unassigned pool, run the root propagation, recurse, and restore the root
prunes.  The source prints the outcome and returns `None`; the embedding
returns the printed outcome together with the final CSP state. -/
def bt_search (prop : PropFn) (vars : List VarId) (fuel : Nat) (st0 : St) :
    Option (Bool × St) :=
  let st1 := restoreAll vars st0
  let pool := vars.filter (fun v => !(st1 v).is_assigned)
  let r0 := prop st1 none
  if r0.1 = false then some (false, restoreValues r0.2.2 r0.2.1)
  else
    match btRecurse prop fuel pool r0.2.2 with
    | none => none
    | some (s, _, stR) => some (s, restoreValues stR r0.2.1)

/-- A successful assignment followed by `unassign` restores the Variable. -/
theorem assign_roundtrip (v : VarState) (x : Val)
    (hna : v.assignedValue = none) (hlk : lookupA v.cur_domain x = some true) :
    (((v.assign x).2).unassign).2 = v := by
  have hass : v.assign x = (none, { v with assignedValue := some x }) := by
    unfold VarState.assign VarState.is_assigned
    simp [hna, hlk]
  rw [hass]
  unfold VarState.unassign VarState.is_assigned
  simp only [Option.isSome_some, if_true]
  have hrec : ({ v with assignedValue := none } : VarState) = v := by
    cases v
    simp_all
  exact hrec

/-- `KeysNodup` survives the trial assignment (which leaves every mask
untouched). -/
theorem KeysNodup_assignUpd (st : St) (var : VarId) (val : Val)
    (h : KeysNodup st) : KeysNodup (updSt st var ((st var).assign val).2) := by
  intro w
  by_cases hw : w = var
  · subst hw
    rw [updSt_same, assign_snd_cur_domain]
    exact h w
  · rw [updSt_other _ _ _ _ hw]
    exact h w

/-- The undo step after a conforming propagator run on a trial assignment
returns exactly to the pre-assignment state. -/
theorem btUndo_restore (st : St) (var : VarId) (val : Val)
    (l : List (VarId × Val))
    (hvun : (st var).assignedValue = none)
    (hvlk : lookupA ((st var).cur_domain) val = some true)
    (hflat : FlatOk (updSt st var ((st var).assign val).2) l) :
    btUndo (applyPrunes (updSt st var ((st var).assign val).2) l) l var = st := by
  unfold btUndo
  rw [restore_applyPrunes l _ hflat]
  rw [updSt_same]
  have hv : ((st var).assign val).2.unassign.2 = st var :=
    assign_roundtrip (st var) val hvun hvlk
  rw [hv, updSt_updSt, updSt_self]

theorem mrVar_go_mem (st : St) :
    ∀ (pool : List VarId) (acc : Option VarId) (v : VarId),
      pool.foldl (fun acc v =>
        match acc with
        | none => some v
        | some m =>
            if (st v).get_cur_domain_size < (st m).get_cur_domain_size then some v
            else acc) acc = some v →
      v ∈ pool ∨ acc = some v := by
  intro pool
  induction pool with
  | nil => intro acc v h; exact Or.inr h
  | cons a pool' ih =>
      intro acc v h
      simp only [List.foldl_cons] at h
      rcases ih _ v h with hm | hm
      · exact Or.inl (List.mem_cons_of_mem a hm)
      · cases acc with
        | none =>
            simp only [Option.some.injEq] at hm
            exact Or.inl (by rw [← hm]; exact List.mem_cons_self a pool')
        | some m =>
            by_cases hlt : (st a).get_cur_domain_size < (st m).get_cur_domain_size
            · rw [show (match some m with
                  | none => some a
                  | some m =>
                      if (st a).get_cur_domain_size < (st m).get_cur_domain_size
                      then some a else some m) =
                  if (st a).get_cur_domain_size < (st m).get_cur_domain_size
                  then some a else some m from rfl, if_pos hlt] at hm
              simp only [Option.some.injEq] at hm
              exact Or.inl (by rw [← hm]; exact List.mem_cons_self a pool')
            · rw [show (match some m with
                  | none => some a
                  | some m =>
                      if (st a).get_cur_domain_size < (st m).get_cur_domain_size
                      then some a else some m) =
                  if (st a).get_cur_domain_size < (st m).get_cur_domain_size
                  then some a else some m from rfl, if_neg hlt] at hm
              exact Or.inr hm

theorem mrVar_mem (pool : List VarId) (st : St) (v : VarId)
    (h : mrVar pool st = some v) : v ∈ pool := by
  rcases mrVar_go_mem st pool none v h with hm | hm
  · exact hm
  · simp at hm

theorem mrVar_go_isSome (st : St) :
    ∀ (pool : List VarId) (m : VarId),
      pool.foldl (fun acc v =>
        match acc with
        | none => some v
        | some m =>
            if (st v).get_cur_domain_size < (st m).get_cur_domain_size then some v
            else acc) (some m) ≠ none := by
  intro pool
  induction pool with
  | nil => intro m h; simp at h
  | cons a pool' ih =>
      intro m h
      simp only [List.foldl_cons] at h
      by_cases hlt : (st a).get_cur_domain_size < (st m).get_cur_domain_size
      · rw [if_pos hlt] at h
        exact ih a h
      · rw [if_neg hlt] at h
        exact ih m h

theorem mrVar_eq_none (pool : List VarId) (st : St) (h : mrVar pool st = none) :
    pool = [] := by
  cases pool with
  | nil => rfl
  | cons a pool' =>
      exfalso
      unfold mrVar at h
      simp only [List.foldl_cons] at h
      exact mrVar_go_isSome st pool' a h

/-- The effect of one `restore_all_variable_domains` iteration on one
variable: unassign it if assigned, then restore its mask. -/
def restoreOne (s : VarState) : VarState :=
  (if s.is_assigned then (s.unassign).2 else s).restore_cur_domain

theorem restoreAll_step (s : St) (v : VarId) :
    (let s1 := if (s v).is_assigned then updSt s v ((s v).unassign).2 else s
     updSt s1 v ((s1 v).restore_cur_domain)) = updSt s v (restoreOne (s v)) := by
  by_cases ha : (s v).is_assigned = true
  · simp only [if_pos ha, updSt_same, updSt_updSt]
    unfold restoreOne
    rw [if_pos ha]
  · simp only [if_neg ha]
    unfold restoreOne
    rw [if_neg ha]

theorem restoreAll_get (vars : List VarId) :
    ∀ (st0 : St), vars.Nodup →
      (∀ v ∈ vars, (restoreAll vars st0) v = restoreOne (st0 v)) ∧
      (∀ v, v ∉ vars → (restoreAll vars st0) v = st0 v) := by
  induction vars with
  | nil =>
      intro st0 _
      exact ⟨by intro v hv; simp at hv, fun v _ => rfl⟩
  | cons a vars' ih =>
      intro st0 hnd
      simp only [List.nodup_cons] at hnd
      have hstep : restoreAll (a :: vars') st0 =
          restoreAll vars' (updSt st0 a (restoreOne (st0 a))) := by
        unfold restoreAll
        simp only [List.foldl_cons]
        rw [restoreAll_step st0 a]
      obtain ⟨ihm, iho⟩ := ih (updSt st0 a (restoreOne (st0 a))) hnd.2
      constructor
      · intro v hv
        rcases List.mem_cons.mp hv with he | hv'
        · subst he
          rw [hstep, iho v hnd.1, updSt_same]
        · have hva : v ≠ a := fun he => hnd.1 (he ▸ hv')
          rw [hstep, ihm v hv', updSt_other _ _ _ _ hva]
      · intro v hv
        simp only [List.mem_cons, not_or] at hv
        rw [hstep, iho v hv.2, updSt_other _ _ _ _ hv.1]

theorem restore_cur_domain_assigned (v : VarState) :
    v.restore_cur_domain.assignedValue = v.assignedValue := rfl

theorem restore_cur_domain_domain (v : VarState) :
    v.restore_cur_domain.domain = v.domain := rfl

theorem restoreOne_assigned (s : VarState) : (restoreOne s).assignedValue = none := by
  unfold restoreOne
  rw [restore_cur_domain_assigned]
  by_cases ha : s.is_assigned
  · rw [if_pos ha]
    unfold VarState.unassign
    rw [if_pos ha]
  · rw [if_neg ha]
    unfold VarState.is_assigned at ha
    cases hv : s.assignedValue with
    | none => rfl
    | some x => rw [hv] at ha; simp at ha

theorem lookupA_foldl_setA_not_mem (l : List Val) (k : Val) :
    ∀ (m : List (Val × Bool)), k ∉ l →
      lookupA (l.foldl (fun m val => setA m val true) m) k = lookupA m k := by
  induction l with
  | nil => intro m _; rfl
  | cons a l' ih =>
      intro m hk
      simp only [List.mem_cons, not_or] at hk
      simp only [List.foldl_cons]
      rw [ih _ hk.2, lookupA_setA_ne _ _ _ _ (fun he => hk.1 he.symm)]

theorem lookupA_foldl_setA_mem (l : List Val) (k : Val) :
    ∀ (m : List (Val × Bool)), k ∈ l →
      lookupA (l.foldl (fun m val => setA m val true) m) k = some true := by
  induction l with
  | nil => intro m hk; simp at hk
  | cons a l' ih =>
      intro m hk
      simp only [List.foldl_cons]
      by_cases hk' : k ∈ l'
      · exact ih _ hk'
      · have hka : k = a := by
          rcases List.mem_cons.mp hk with h | h
          · exact h
          · exact absurd h hk'
        subst hka
        rw [lookupA_foldl_setA_not_mem l' k _ hk', lookupA_setA_self]

theorem restoreOne_domain (s : VarState) : (restoreOne s).domain = s.domain := by
  unfold restoreOne
  rw [restore_cur_domain_domain]
  by_cases ha : s.is_assigned
  · rw [if_pos ha]
    unfold VarState.unassign
    rw [if_pos ha]
  · rw [if_neg ha]

theorem restoreOne_mask (s : VarState) (x : Val) (hx : x ∈ s.domain) :
    lookupA (restoreOne s).cur_domain x = some true := by
  unfold restoreOne VarState.restore_cur_domain
  by_cases ha : s.is_assigned
  · rw [if_pos ha]
    show lookupA (((s.unassign).2).domain.foldl (fun m val => setA m val true)
      ((s.unassign).2).cur_domain) x = some true
    have hdom : ((s.unassign).2).domain = s.domain := by
      unfold VarState.unassign
      rw [if_pos ha]
    rw [hdom]
    exact lookupA_foldl_setA_mem s.domain x _ hx
  · rw [if_neg ha]
    exact lookupA_foldl_setA_mem s.domain x _ hx

theorem keysNodup_foldl_setA (l : List Val) :
    ∀ (m : List (Val × Bool)), (m.map Prod.fst).Nodup →
      (((l.foldl (fun m val => setA m val true) m)).map Prod.fst).Nodup := by
  induction l with
  | nil => intro m h; exact h
  | cons a l' ih =>
      intro m h
      simp only [List.foldl_cons]
      exact ih _ (keysNodup_setA _ _ _ h)

theorem keysNodup_restoreOne (s : VarState)
    (h : (s.cur_domain.map Prod.fst).Nodup) :
    ((restoreOne s).cur_domain.map Prod.fst).Nodup := by
  unfold restoreOne VarState.restore_cur_domain
  by_cases ha : s.is_assigned
  · rw [if_pos ha]
    apply keysNodup_foldl_setA
    show (((s.unassign).2).cur_domain.map Prod.fst).Nodup
    rw [unassign_snd_cur_domain]
    exact h
  · rw [if_neg ha]
    exact keysNodup_foldl_setA _ _ h

theorem KeysNodup_restoreAll (vars : List VarId) (st0 : St) (hnd : vars.Nodup)
    (h : KeysNodup st0) : KeysNodup (restoreAll vars st0) := by
  intro v
  by_cases hv : v ∈ vars
  · rw [(restoreAll_get vars st0 hnd).1 v hv]
    exact keysNodup_restoreOne (st0 v) (h v)
  · rw [(restoreAll_get vars st0 hnd).2 v hv]
    exact h v

/-- Failure-side invariant of the search: a failed `bt_recurse` call leaves
the state exactly as it found it, and returns the pool with the same
members (the tried variable is re-appended at the end). -/
theorem btL1 (prop : PropFn) (hp : PropConform prop) :
    ∀ fuel : Nat,
      (∀ (pool : List VarId) (st : St) (poolR : List VarId) (stR : St),
        pool.Nodup → KeysNodup st → (∀ v ∈ pool, (st v).assignedValue = none) →
        btRecurse prop fuel pool st = some (false, poolR, stR) →
        stR = st ∧ poolR.Nodup ∧ (∀ v, v ∈ poolR ↔ v ∈ pool)) ∧
      (∀ (var : VarId) (pool : List VarId) (vals : List Val) (st : St)
          (poolR : List VarId) (stR : St),
        pool.Nodup → var ∉ pool → KeysNodup st →
        (∀ v ∈ pool, (st v).assignedValue = none) →
        (st var).assignedValue = none →
        (∀ x ∈ vals, lookupA ((st var).cur_domain) x = some true) →
        btVals prop fuel var pool vals st = some (false, poolR, stR) →
        stR = st ∧ poolR.Nodup ∧ (∀ v, v ∈ poolR ↔ v = var ∨ v ∈ pool)) := by
  intro fuel
  induction fuel with
  | zero =>
      constructor
      · intro pool st poolR stR _ _ _ h
        simp [btRecurse] at h
      · intro var pool vals st poolR stR _ _ _ _ _ _ h
        simp [btVals] at h
  | succ fuel ih =>
      obtain ⟨ihR, ihV⟩ := ih
      constructor
      · intro pool st poolR stR hnd hkeys hun h
        simp only [btRecurse] at h
        cases hmr : mrVar pool st with
        | none =>
            rw [hmr] at h
            have h' : some (true, pool, st) =
                some (false, poolR, stR) := h
            simp at h'
        | some var =>
            rw [hmr] at h
            have h' : btVals prop fuel var (pool.erase var)
                ((st var).get_cur_domain) st = some (false, poolR, stR) := h
            have hvmem := mrVar_mem pool st var hmr
            have hvun : (st var).assignedValue = none := hun var hvmem
            have herased : var ∉ pool.erase var := by
              intro hmem
              exact ((List.Nodup.mem_erase_iff hnd).mp hmem).1 rfl
            have hpe := ihV var (pool.erase var) ((st var).get_cur_domain) st
              poolR stR (hnd.erase var) herased hkeys
              (fun v hv => hun v (List.mem_of_mem_erase hv)) hvun
              (fun x hx => by
                have hcd : (st var).get_cur_domain =
                    (((st var).cur_domain).filter (fun p => p.2)).map Prod.fst := by
                  unfold VarState.get_cur_domain
                  rw [hvun]
                rw [hcd] at hx
                exact lookupA_eq_true_of_mem_view _ _ (hkeys var) hx)
              h'
            refine ⟨hpe.1, hpe.2.1, ?_⟩
            intro v
            rw [hpe.2.2 v]
            constructor
            · rintro (he | hv)
              · exact he ▸ hvmem
              · exact List.mem_of_mem_erase hv
            · intro hv
              by_cases hvv : v = var
              · exact Or.inl hvv
              · exact Or.inr ((List.mem_erase_of_ne hvv).mpr hv)
      · intro var pool vals st poolR stR hnd hvp hkeys hun hvun hvals h
        cases vals with
        | nil =>
            simp only [btVals] at h
            have h' : some (false, pool ++ [var], st) =
                some (false, poolR, stR) := h
            simp only [Option.some.injEq, Prod.mk.injEq, true_and] at h'
            obtain ⟨hpool, hst⟩ := h'
            refine ⟨hst.symm, ?_, ?_⟩
            · rw [← hpool]
              rw [List.nodup_append]
              refine ⟨hnd, by simp, ?_⟩
              intro a ha hb
              simp only [List.mem_singleton] at hb
              exact hvp (hb ▸ ha)
            · intro v
              rw [← hpool]
              simp [List.mem_append, or_comm]
        | cons val rest =>
            simp only [btVals] at h
            have hvlk := hvals val (List.mem_cons_self val rest)
            have hkey1 : KeysNodup (updSt st var ((st var).assign val).2) :=
              KeysNodup_assignUpd st var val hkeys
            obtain ⟨heff, hflat⟩ :=
              hp (updSt st var ((st var).assign val).2) (some var)
            have hundo : btUndo
                (prop (updSt st var ((st var).assign val).2) (some var)).2.2
                (prop (updSt st var ((st var).assign val).2) (some var)).2.1
                var = st := by
              rw [heff]
              exact btUndo_restore st var val _ hvun hvlk hflat
            have hassignedST1 : ∀ w,
                ((updSt st var ((st var).assign val).2) w).assignedValue =
                  if w = var then some val else (st w).assignedValue := by
              intro w
              by_cases hw : w = var
              · subst hw
                rw [updSt_same, if_pos rfl]
                unfold VarState.assign VarState.is_assigned
                simp [hvun, hvlk]
              · rw [updSt_other _ _ _ _ hw, if_neg hw]
            by_cases hok :
                (prop (updSt st var ((st var).assign val).2) (some var)).1 = true
            · rw [if_pos hok] at h
              cases hbr : btRecurse prop fuel pool
                  (prop (updSt st var ((st var).assign val).2) (some var)).2.2 with
              | none =>
                  rw [hbr] at h
                  have h' : (none : Option (Bool × List VarId × St)) =
                      some (false, poolR, stR) := h
                  cases h'
              | some res =>
                  obtain ⟨b1, poolR1, stR1⟩ := res
                  rw [hbr] at h
                  cases b1 with
                  | true =>
                      have h' : some (true, poolR1, stR1) =
                          some (false, poolR, stR) := h
                      simp at h'
                  | false =>
                      have h' : btVals prop fuel var poolR1 rest
                          (btUndo stR1
                            (prop (updSt st var ((st var).assign val).2)
                              (some var)).2.1 var) =
                          some (false, poolR, stR) := h
                      have hst2un : ∀ v ∈ pool,
                          (((prop (updSt st var ((st var).assign val).2)
                            (some var)).2.2) v).assignedValue = none := by
                        intro v hv
                        have hvne : ¬v = var := fun he => hvp (he ▸ hv)
                        rw [heff, applyPrunes_assigned _ _ hflat v,
                          hassignedST1 v, if_neg hvne]
                        exact hun v hv
                      have hR := ihR pool _ poolR1 stR1 hnd
                        (by rw [heff]; exact KeysNodup_applyPrunes _ _ hkey1)
                        hst2un hbr
                      rw [hR.1, hundo] at h'
                      have hV := ihV var poolR1 rest st poolR stR hR.2.1
                        (fun hm => hvp ((hR.2.2 var).mp hm))
                        hkeys (fun v hv => hun v ((hR.2.2 v).mp hv)) hvun
                        (fun x hx => hvals x (List.mem_cons_of_mem val hx)) h'
                      refine ⟨hV.1, hV.2.1, ?_⟩
                      intro v
                      rw [hV.2.2 v]
                      constructor
                      · rintro (he | hv)
                        · exact Or.inl he
                        · exact Or.inr ((hR.2.2 v).mp hv)
                      · rintro (he | hv)
                        · exact Or.inl he
                        · exact Or.inr ((hR.2.2 v).mpr hv)
            · rw [if_neg hok] at h
              rw [hundo] at h
              exact ihV var pool rest st poolR stR hnd hvp hkeys hun hvun
                (fun x hx => hvals x (List.mem_cons_of_mem val hx)) h

/-- Success-side invariant of the search: a successful `bt_recurse` call
leaves every pool variable assigned and never unassigns a variable. -/
theorem btL2 (prop : PropFn) (hp : PropConform prop) :
    ∀ fuel : Nat,
      (∀ (pool : List VarId) (st : St) (poolR : List VarId) (stR : St),
        pool.Nodup → KeysNodup st → (∀ v ∈ pool, (st v).assignedValue = none) →
        btRecurse prop fuel pool st = some (true, poolR, stR) →
        (∀ v ∈ pool, (stR v).assignedValue ≠ none) ∧
        (∀ v, (st v).assignedValue ≠ none → (stR v).assignedValue ≠ none)) ∧
      (∀ (var : VarId) (pool : List VarId) (vals : List Val) (st : St)
          (poolR : List VarId) (stR : St),
        pool.Nodup → var ∉ pool → KeysNodup st →
        (∀ v ∈ pool, (st v).assignedValue = none) →
        (st var).assignedValue = none →
        (∀ x ∈ vals, lookupA ((st var).cur_domain) x = some true) →
        btVals prop fuel var pool vals st = some (true, poolR, stR) →
        (stR var).assignedValue ≠ none ∧
        (∀ v ∈ pool, (stR v).assignedValue ≠ none) ∧
        (∀ v, (st v).assignedValue ≠ none → (stR v).assignedValue ≠ none)) := by
  intro fuel
  induction fuel with
  | zero =>
      constructor
      · intro pool st poolR stR _ _ _ h
        simp [btRecurse] at h
      · intro var pool vals st poolR stR _ _ _ _ _ _ h
        simp [btVals] at h
  | succ fuel ih =>
      obtain ⟨ihR, ihV⟩ := ih
      constructor
      · intro pool st poolR stR hnd hkeys hun h
        simp only [btRecurse] at h
        cases hmr : mrVar pool st with
        | none =>
            rw [hmr] at h
            have h' : some (true, pool, st) = some (true, poolR, stR) := h
            simp only [Option.some.injEq, Prod.mk.injEq, true_and] at h'
            obtain ⟨hpool, hst⟩ := h'
            have hempty := mrVar_eq_none pool st hmr
            subst hempty
            refine ⟨by intro v hv; simp at hv, ?_⟩
            intro v hv
            rw [← hst]
            exact hv
        | some var =>
            rw [hmr] at h
            have h' : btVals prop fuel var (pool.erase var)
                ((st var).get_cur_domain) st = some (true, poolR, stR) := h
            have hvmem := mrVar_mem pool st var hmr
            have hvun : (st var).assignedValue = none := hun var hvmem
            have herased : var ∉ pool.erase var := by
              intro hmem
              exact ((List.Nodup.mem_erase_iff hnd).mp hmem).1 rfl
            have hpe := ihV var (pool.erase var) ((st var).get_cur_domain) st
              poolR stR (hnd.erase var) herased hkeys
              (fun v hv => hun v (List.mem_of_mem_erase hv)) hvun
              (fun x hx => by
                have hcd : (st var).get_cur_domain =
                    (((st var).cur_domain).filter (fun p => p.2)).map Prod.fst := by
                  unfold VarState.get_cur_domain
                  rw [hvun]
                rw [hcd] at hx
                exact lookupA_eq_true_of_mem_view _ _ (hkeys var) hx)
              h'
            refine ⟨?_, hpe.2.2⟩
            intro v hv
            by_cases hvv : v = var
            · rw [hvv]
              exact hpe.1
            · exact hpe.2.1 v ((List.mem_erase_of_ne hvv).mpr hv)
      · intro var pool vals st poolR stR hnd hvp hkeys hun hvun hvals h
        cases vals with
        | nil =>
            simp only [btVals] at h
            have h' : some (false, pool ++ [var], st) =
                some (true, poolR, stR) := h
            simp at h'
        | cons val rest =>
            simp only [btVals] at h
            have hvlk := hvals val (List.mem_cons_self val rest)
            have hkey1 : KeysNodup (updSt st var ((st var).assign val).2) :=
              KeysNodup_assignUpd st var val hkeys
            obtain ⟨heff, hflat⟩ :=
              hp (updSt st var ((st var).assign val).2) (some var)
            have hundo : btUndo
                (prop (updSt st var ((st var).assign val).2) (some var)).2.2
                (prop (updSt st var ((st var).assign val).2) (some var)).2.1
                var = st := by
              rw [heff]
              exact btUndo_restore st var val _ hvun hvlk hflat
            have hassignedST1 : ∀ w,
                ((updSt st var ((st var).assign val).2) w).assignedValue =
                  if w = var then some val else (st w).assignedValue := by
              intro w
              by_cases hw : w = var
              · subst hw
                rw [updSt_same, if_pos rfl]
                unfold VarState.assign VarState.is_assigned
                simp [hvun, hvlk]
              · rw [updSt_other _ _ _ _ hw, if_neg hw]
            have hst2ass : ∀ w,
                (((prop (updSt st var ((st var).assign val).2) (some var)).2.2)
                  w).assignedValue =
                  if w = var then some val else (st w).assignedValue := by
              intro w
              rw [heff, applyPrunes_assigned _ _ hflat w, hassignedST1 w]
            have hst2un : ∀ v ∈ pool,
                (((prop (updSt st var ((st var).assign val).2) (some var)).2.2)
                  v).assignedValue = none := by
              intro v hv
              have hvne : ¬v = var := fun he => hvp (he ▸ hv)
              rw [hst2ass v, if_neg hvne]
              exact hun v hv
            by_cases hok :
                (prop (updSt st var ((st var).assign val).2) (some var)).1 = true
            · rw [if_pos hok] at h
              cases hbr : btRecurse prop fuel pool
                  (prop (updSt st var ((st var).assign val).2) (some var)).2.2 with
              | none =>
                  rw [hbr] at h
                  have h' : (none : Option (Bool × List VarId × St)) =
                      some (true, poolR, stR) := h
                  cases h'
              | some res =>
                  obtain ⟨b1, poolR1, stR1⟩ := res
                  rw [hbr] at h
                  cases b1 with
                  | true =>
                      have h' : some (true, poolR1, stR1) =
                          some (true, poolR, stR) := h
                      simp only [Option.some.injEq, Prod.mk.injEq, true_and] at h'
                      obtain ⟨hpool, hst⟩ := h'
                      have hRec := ihR pool _ poolR1 stR1 hnd
                        (by rw [heff]; exact KeysNodup_applyPrunes _ _ hkey1)
                        hst2un hbr
                      subst hst
                      refine ⟨?_, hRec.1, ?_⟩
                      · apply hRec.2
                        rw [hst2ass var, if_pos rfl]
                        simp
                      · intro v hv
                        apply hRec.2
                        rw [hst2ass v]
                        by_cases hvv : v = var
                        · rw [if_pos hvv]; simp
                        · rw [if_neg hvv]; exact hv
                  | false =>
                      have h' : btVals prop fuel var poolR1 rest
                          (btUndo stR1
                            (prop (updSt st var ((st var).assign val).2)
                              (some var)).2.1 var) =
                          some (true, poolR, stR) := h
                      have hfail := ((btL1 prop hp fuel).1) pool _ poolR1 stR1 hnd
                        (by rw [heff]; exact KeysNodup_applyPrunes _ _ hkey1)
                        hst2un hbr
                      rw [hfail.1, hundo] at h'
                      have hV := ihV var poolR1 rest st poolR stR hfail.2.1
                        (fun hm => hvp ((hfail.2.2 var).mp hm))
                        hkeys (fun v hv => hun v ((hfail.2.2 v).mp hv)) hvun
                        (fun x hx => hvals x (List.mem_cons_of_mem val hx)) h'
                      refine ⟨hV.1, ?_, hV.2.2⟩
                      intro v hv
                      exact hV.2.1 v ((hfail.2.2 v).mpr hv)
            · rw [if_neg hok] at h
              rw [hundo] at h
              exact ihV var pool rest st poolR stR hnd hvp hkeys hun hvun
                (fun x hx => hvals x (List.mem_cons_of_mem val hx)) h

/-- C2 amended: `bt_search` reports a success/failure outcome (printed — the
source function itself returns `None`; the embedding returns the printed
outcome with the final state).  For a propagator whose only state effect is
pruning exactly the pairs it returns — each pairwise distinct, unpruned at
prune time, and not the assigned value of its Variable — on failure every
Variable ends unassigned with its current domain fully restored
(the final state is exactly the reset state `restoreAll`), and on success
every Variable ends assigned.  Constraint satisfaction on success is the
propagator's responsibility, not the driver's. -/
theorem bt_search_outcome_state_amended (prop : PropFn) (vars : List VarId)
    (fuel : Nat) (st0 : St) (res : Bool × St)
    (hvars : vars.Nodup) (hkeys0 : KeysNodup st0) (hp : PropConform prop)
    (hrun : bt_search prop vars fuel st0 = some res) :
    (res.1 = false → res.2 = restoreAll vars st0) ∧
    (res.1 = true → ∀ v ∈ vars, (res.2 v).assignedValue ≠ none) ∧
    (∀ v ∈ vars, ((restoreAll vars st0) v).assignedValue = none ∧
      ∀ x ∈ ((restoreAll vars st0) v).domain,
        lookupA (((restoreAll vars st0) v).cur_domain) x = some true) := by
  have hkeys1 : KeysNodup (restoreAll vars st0) :=
    KeysNodup_restoreAll vars st0 hvars hkeys0
  have hprops : ∀ v ∈ vars, ((restoreAll vars st0) v).assignedValue = none ∧
      ∀ x ∈ ((restoreAll vars st0) v).domain,
        lookupA (((restoreAll vars st0) v).cur_domain) x = some true := by
    intro v hv
    rw [(restoreAll_get vars st0 hvars).1 v hv]
    refine ⟨restoreOne_assigned _, ?_⟩
    intro x hx
    rw [restoreOne_domain] at hx
    exact restoreOne_mask _ x hx
  have hmem_pool : ∀ v ∈ vars,
      v ∈ vars.filter (fun v => !((restoreAll vars st0) v).is_assigned) := by
    intro v hv
    refine List.mem_filter.mpr ⟨hv, ?_⟩
    unfold VarState.is_assigned
    rw [(hprops v hv).1]
    rfl
  have hpool_nodup :
      (vars.filter (fun v => !((restoreAll vars st0) v).is_assigned)).Nodup :=
    hvars.filter _
  have hpool_un : ∀ v ∈ vars.filter
        (fun v => !((restoreAll vars st0) v).is_assigned),
      ((restoreAll vars st0) v).assignedValue = none := by
    intro v hv
    exact (hprops v (List.mem_of_mem_filter hv)).1
  obtain ⟨heff0, hflat0⟩ := hp (restoreAll vars st0) none
  simp only [bt_search] at hrun
  by_cases h0 : (prop (restoreAll vars st0) none).1 = false
  · rw [if_pos h0] at hrun
    simp only [Option.some.injEq] at hrun
    have hres : res = (false,
        restoreValues (prop (restoreAll vars st0) none).2.2
          (prop (restoreAll vars st0) none).2.1) := hrun.symm
    subst hres
    refine ⟨?_, ?_, hprops⟩
    · intro _
      show restoreValues (prop (restoreAll vars st0) none).2.2
        (prop (restoreAll vars st0) none).2.1 = restoreAll vars st0
      rw [heff0]
      exact restore_applyPrunes _ _ hflat0
    · intro hcontra
      cases hcontra
  · rw [if_neg h0] at hrun
    cases hbr : btRecurse prop fuel
        (vars.filter (fun v => !((restoreAll vars st0) v).is_assigned))
        (prop (restoreAll vars st0) none).2.2 with
    | none =>
        rw [hbr] at hrun
        cases hrun
    | some out =>
        obtain ⟨s, poolR, stR⟩ := out
        rw [hbr] at hrun
        have hres : res = (s, restoreValues stR (prop (restoreAll vars st0) none).2.1) := by
          have hrun' : some (s, restoreValues stR
              (prop (restoreAll vars st0) none).2.1) = some res := hrun
          simp only [Option.some.injEq] at hrun'
          exact hrun'.symm
        subst hres
        have hkeys2 : KeysNodup (prop (restoreAll vars st0) none).2.2 := by
          rw [heff0]
          exact KeysNodup_applyPrunes _ _ hkeys1
        have hun2 : ∀ v ∈ vars.filter
              (fun v => !((restoreAll vars st0) v).is_assigned),
            (((prop (restoreAll vars st0) none).2.2) v).assignedValue = none := by
          intro v hv
          rw [heff0, applyPrunes_assigned _ _ hflat0 v]
          exact hpool_un v hv
        cases s with
        | false =>
            have hfail := ((btL1 prop hp fuel).1) _ _ poolR stR
              hpool_nodup hkeys2 hun2 hbr
            refine ⟨?_, ?_, hprops⟩
            · intro _
              show restoreValues stR (prop (restoreAll vars st0) none).2.1 =
                restoreAll vars st0
              rw [hfail.1, heff0]
              exact restore_applyPrunes _ _ hflat0
            · intro hcontra
              cases hcontra
        | true =>
            have hsucc := ((btL2 prop hp fuel).1) _ _ poolR stR
              hpool_nodup hkeys2 hun2 hbr
            refine ⟨?_, ?_, hprops⟩
            · intro hcontra
              cases hcontra
            · intro _ v hv
              show ((restoreValues stR
                (prop (restoreAll vars st0) none).2.1 v).assignedValue) ≠ none
              rw [restoreValues_assigned]
              exact hsucc.1 v (hmem_pool v hv)

/-- The trivial conforming propagator: no pruning, never a dead end.  It is
`prop_BT`'s behaviour minus the constraint checks, and satisfies the
propagator contract of propagators.py to the letter. -/
def trivProp : PropFn := fun st _ => (true, [], st)

/-- One variable with domain `{1}`. -/
def c2St : St := fun _ => mkVariable [1]

/-- An unsatisfiable constraint over variable `0`. -/
def c2Con : Constraint := { scope := [0], pred := fun _ => false }

/-- C2 counterexample: the claim promises that on success the CSP is fully
assigned *with every constraint satisfied*, for every CSP and every
Propagator.  With the conforming propagator `trivProp` and an unsatisfiable
constraint, the search reports success (the driver itself checks nothing),
the variable is assigned, and the constraint is violated. -/
theorem bt_search_success_unsatisfied_constraint :
    (bt_search trivProp [0] 3 c2St).isSome = true ∧
    ((bt_search trivProp [0] 3 c2St).getD (false, c2St)).1 = true ∧
    (((bt_search trivProp [0] 3 c2St).getD (false, c2St)).2 0).assignedValue = some 1 ∧
    c2Con.check ((bt_search trivProp [0] 3 c2St).getD (false, c2St)).2 = false := by
  refine ⟨rfl, rfl, rfl, rfl⟩

/-- C2 amended, witness at a concrete input. -/
theorem bt_search_outcome_state_amended_witness :
    (((bt_search trivProp [0] 3 c2St).getD (false, c2St)).2 0).assignedValue ≠ none := by
  have hconf : PropConform trivProp := by
    intro st nv
    exact ⟨rfl, List.nodup_nil, fun p hp => absurd hp (List.not_mem_nil p)⟩
  have hkeys : KeysNodup c2St := by
    intro v
    simp [c2St, mkVariable]
  have h := bt_search_outcome_state_amended trivProp [0] 3 c2St
    ((bt_search trivProp [0] 3 c2St).getD (false, c2St)) (by simp) hkeys hconf rfl
  exact h.2.1 rfl 0 (by simp)

/-- A CSP with two registered variables for the C7 witness. -/
def c7Csp : PyCSP := (PyCSP.mk [] [] []).add_var 0 |>.add_var 1

/-- C7 witness at concrete inputs: the rejection branch leaves the CSP
unchanged, and the success branch stores and indexes the constraint. -/
theorem add_constraint_spec_witness :
    c7Csp.add_constraint 0 [0, 7] = (false, c7Csp) ∧
    (c7Csp.add_constraint 0 [0, 1]).1 = true ∧
    0 ∈ (c7Csp.add_constraint 0 [0, 1]).2.cons ∧
    0 ∈ idxEntry (c7Csp.add_constraint 0 [0, 1]).2.vars_to_cons 1 := by
  have h1 := (add_constraint_spec c7Csp 0 [0, 7]).1
  have h2 := (add_constraint_spec c7Csp 0 [0, 1]).2
  refine ⟨h1 ⟨7, by decide, by decide⟩, ?_, ?_, ?_⟩
  · exact (h2 (by decide)).1
  · exact (h2 (by decide)).2.1
  · exact (h2 (by decide)).2.2.2 1 (by decide)

end TileCompile
